import Mathlib

/-!
Verification development for the augmentation-runes tool (`src/main.py`,
`src/schemas.py`).

Strings are embedded as `List Char` (named `Str` below); Python's
`str.strip`, `str.split('\n')` and `re.sub` for the pattern `\d+\.` are
modelled character by character.  The regex class `\d` is modelled as the
ASCII decimal digits (`Char.isDigit`); Python's whitespace notion is
modelled by `Char.isWhitespace`.

Interactive input (the `inquirer.confirm` answers) and the completion
endpoint's replies are inherently external: they are supplied to the
embedded functions as explicit oracle values.  The retry loop of
`ask_openai` is modelled over an explicit stream of endpoint outcomes;
at the driver level each successful call's `Response` is supplied
directly by the oracle, since only a successful `ask_openai` ever
returns.  Console printing is not modelled; clipboard writes and API
calls are recorded in an event trace.
-/

abbrev Str := List Char

/-- Python `str.strip()`: drop whitespace from both ends. -/
def trim (l : Str) : Str :=
  ((l.dropWhile Char.isWhitespace).reverse.dropWhile Char.isWhitespace).reverse

/-- Prepend a character to the first piece of a split result. -/
def consHead (c : Char) : List Str → List Str
  | [] => [[c]]
  | l :: ls => (c :: l) :: ls

/-- Python `str.split(sep)` for a one-character separator: `"".split` gives
`[""]`, and every separator occurrence produces a boundary. -/
def splitOnChar (sep : Char) : Str → List Str
  | [] => [[]]
  | c :: rest =>
    if c = sep then [] :: splitOnChar sep rest
    else consHead c (splitOnChar sep rest)

/-- Scanner for Python `re.sub(r'\d+\.', '', line)` (`REGEX_ITEM.sub` in
`src/main.py` line 34/109).  `run` holds the digits of the current maximal
digit run, in reverse.  A maximal digit run immediately followed by `'.'`
is a leftmost match of `\d+\.` and is deleted together with the dot;
scanning resumes after the match, exactly as `re.sub` does (the result is
never rescanned). -/
def subGo : Str → Str → Str
  | run, [] => run.reverse
  | run, c :: rest =>
    if c.isDigit then subGo (c :: run) rest
    else if c = '.' then
      if run.isEmpty then c :: subGo [] rest else subGo [] rest
    else run.reverse ++ c :: subGo [] rest

/-- `REGEX_ITEM.sub('', line)` from `src/main.py`: remove every occurrence
of one-or-more digits followed by a period, leftmost first. -/
def subItem (l : Str) : Str := subGo [] l

/-- `parse_response` from `src/main.py` lines 103-111: split on newlines,
drop lines that are empty after stripping, then on each remaining line
delete every `\d+\.` occurrence and strip. -/
def parse_response (response : Str) : List Str :=
  ((splitOnChar '\n' response).filter (fun x => !(trim x).isEmpty)).map
    (fun x => trim (subItem x))

/-- Strips a digit-run-plus-period marker only when it sits at the very
start of the line; used by `parse_response_leading_only` below. -/
def strip_leading_marker (l : Str) : Str :=
  match l.dropWhile Char.isDigit with
  | '.' :: rest => if (l.takeWhile Char.isDigit).isEmpty then l else rest
  | _ => l

/-- Reading of the parser that claim C3 attributes to the code: split on
newlines, drop blank lines, strip only a LEADING enumeration marker and
trim, leaving digit-period sequences elsewhere in the line intact.  This
definition follows the claim's words and is compared against
`parse_response`, which embeds the source. -/
def parse_response_leading_only (response : Str) : List Str :=
  ((splitOnChar '\n' response).filter (fun x => !(trim x).isEmpty)).map
    (fun x => trim (strip_leading_marker x))

/-- The spec-side reading of `REGEX_ITEM.sub('', line)`, written
independently of the scanner `subGo`: walking the line left to right, a
maximal run of digits immediately followed by a period is a leftmost match
of one-or-more-digits-then-period and is deleted together with the period,
scanning resuming after it; any other character is kept.  `parse_response`
is proved equal to the parser built from this description. -/
def strip_markers_spec : Str → Str
  | [] => []
  | c :: rest =>
    if c.isDigit then
      if (rest.dropWhile Char.isDigit).head? = some '.' then
        strip_markers_spec (rest.dropWhile Char.isDigit).tail
      else c :: strip_markers_spec rest
    else c :: strip_markers_spec rest
termination_by l => l.length
decreasing_by
  all_goals simp_wf
  all_goals
    (have hdw : ∀ l : List Char, (List.dropWhile Char.isDigit l).length ≤ l.length := by
      intro l
      induction l with
      | nil => simp
      | cons x xs ih =>
        rw [List.dropWhile_cons]
        by_cases hx : Char.isDigit x = true
        · rw [if_pos hx]
          exact Nat.le_succ_of_le ih
        · rw [if_neg hx]
     have h1 := hdw rest
     have _h2 := List.length_tail (rest.dropWhile Char.isDigit)
     omega)

/-- The amended claim C3's full description of the parser: split on line
breaks, discard lines that are empty after trimming, delete every
digit-run-plus-period occurrence wherever it sits (`strip_markers_spec`)
and trim again, keeping the cleaned lines in their original order. -/
def parse_response_spec_reading (response : Str) : List Str :=
  ((splitOnChar '\n' response).filter (fun x => !(trim x).isEmpty)).map
    (fun x => trim (strip_markers_spec x))

/-- `true` iff the string has no digit immediately followed by a period,
i.e. no substring matching `\d+\.`. -/
def noMarker : Str → Bool
  | [] => true
  | [_] => true
  | a :: b :: rest => (!(a.isDigit && b == '.')) && noMarker (b :: rest)

/-- The ASCII digit character for `n < 10`. -/
def digitChar (n : Nat) : Char := Char.ofNat (48 + n)

/-- Decimal rendering helper with explicit fuel (so that it is structural
and kernel-evaluable). -/
def natCharsAux : Nat → Nat → List Char
  | 0, _ => []
  | fuel + 1, n =>
    if n < 10 then [digitChar n]
    else natCharsAux fuel (n / 10) ++ [digitChar (n % 10)]

/-- Decimal rendering of a natural number, as Python's `str(n)` / f-string
formatting produces it. -/
def natChars (n : Nat) : List Char := natCharsAux (n + 1) n

/-- The joined numbered text of claim C2's round-trip hypothesis: each
element prefixed with its index rendered in decimal followed by `". "`.
`number_from 1 items` gives 1-based numbering. -/
def number_from (n : Nat) : List Str → List Str
  | [] => []
  | s :: rest => (natChars n ++ '.' :: ' ' :: s) :: number_from (n + 1) rest

/-- Join lines with `'\n'` (no trailing newline), as in claim C2's
round-trip construction. -/
def joinLines : List Str → Str
  | [] => []
  | [l] => l
  | l :: ls => l ++ '\n' :: joinLines ls

/-- `get_only_the_rune_name` from `src/main.py` lines 114-118: strip a
leading `"RUNA"` token and surrounding whitespace. -/
def runaWord : Str := "RUNA".toList

/-- `get_only_the_rune_name` itself. -/
def get_only_the_rune_name (rune_name : Str) : Str :=
  if runaWord.isPrefixOf rune_name then trim (rune_name.drop runaWord.length)
  else rune_name

/-- Body of the loop in `create_string_from_list` (`src/main.py` lines
121-140): item `i` of `total` is double-quoted, followed by a comma unless
it is the last item, then a newline. -/
def csfGo (total : Nat) : Nat → List Str → Str
  | _, [] => []
  | i, item :: rest =>
    '"' :: item ++ '"' :: (if i < total - 1 then [','] else []) ++
      '\n' :: csfGo total (i + 1) rest

/-- `create_string_from_list` from `src/main.py`. -/
def create_string_from_list (items : List Str) : Str :=
  csfGo items.length 0 items

/-- The spec's description of the export format, written independently of
the loop in the source: each item double-quoted on its own line, joined
with a trailing comma on every line except the last. -/
def render_spec : List Str → Str
  | [] => []
  | [x] => '"' :: x ++ ['"', '\n']
  | x :: rest => '"' :: x ++ ['"', ',', '\n'] ++ render_spec rest

/-- `Role` from `src/schemas.py`. -/
inductive Role where
  | user
  | system
  | assistant
deriving DecidableEq

/-- `Message` from `src/schemas.py`. -/
structure Message where
  role : Role
  content : Str
deriving DecidableEq

/-- `finish_reason` values from `src/schemas.py` (`None` is `Option.none`). -/
inductive FinishReason where
  | stop
  | length
  | content_filter
deriving DecidableEq

/-- `Choice` from `src/schemas.py`. -/
structure Choice where
  message : Message
  finish_reason : Option FinishReason
  index : Nat
deriving DecidableEq

/-- `Usage` from `src/schemas.py`. -/
structure Usage where
  prompt_tokens : Nat
  completion_tokens : Nat
  total_tokens : Nat
deriving DecidableEq

/-- `Response` from `src/schemas.py`. -/
structure Response where
  id : Str
  object : Str
  created : Nat
  model : Str
  usage : Usage
  choices : List Choice
deriving DecidableEq

/-- `Prompt` from `src/schemas.py`. -/
structure Prompt where
  role : Role
  content : Str
deriving DecidableEq

/-- The `type` field of `RuneDefinition`. -/
inductive RuneType where
  | normal
  | invert
deriving DecidableEq

/-- `RuneDefinition` from `src/schemas.py`: `alternatives` and `summaries`
are optional. -/
structure RuneDefinition where
  rune_name : Str
  description : Str
  type : RuneType
  alternatives : Option (List Str)
  summaries : Option (List Str)
deriving DecidableEq

/-- `Processment` from `src/schemas.py`. -/
structure Processment where
  rune_definition : RuneDefinition
  total_tokens : Nat := 0
deriving DecidableEq

/-- Python truthiness of an optional list: `None` and `[]` are falsy. -/
def truthy (o : Option (List α)) : Bool :=
  match o with
  | none => false
  | some l => !l.isEmpty

/-- First fixed chunk of `PROMPT_TO_GENERATE` (`src/main.py` lines 25-30). -/
def genChunk1 : Str :=
  "Escribe 10 párrafos que sean variación del siguiente párrafo:\n\nla runa ".toList

/-- The `": "` between the name and the description in the template. -/
def genChunk2 : Str := ": ".toList

/-- Middle fixed chunk of `PROMPT_TO_GENERATE`. -/
def genChunk3 : Str := "\n\nPero no te salgas de la runa ".toList

/-- Trailing newline of `PROMPT_TO_GENERATE`. -/
def genChunk4 : Str := "\n".toList

/-- `PROMPT_TO_GENERATE.format(rune_name=..., invert=..., text=...)`. -/
def prompt_to_generate (rune_name invert text : Str) : Str :=
  genChunk1 ++ rune_name ++ invert ++ genChunk2 ++ text ++
    genChunk3 ++ rune_name ++ invert ++ genChunk4

/-- The inversion qualifier `' invertida'` (note the leading space). -/
def invertQualifier : Str := " invertida".toList

/-- The bare word `"invertida"`. -/
def invertWord : Str := "invertida".toList

/-- The alternatives prompt as built in `process_alternatives`
(`src/main.py` lines 188-198). -/
def build_alternatives_prompt (r : RuneDefinition) : Str :=
  prompt_to_generate (get_only_the_rune_name r.rune_name)
    (if r.type = RuneType.invert then invertQualifier else []) r.description

/-- `PROMPT_TO_SUMMARY.format(text=...)` (`src/main.py` line 32). -/
def summaryChunk : Str :=
  "Resume bien resumido este párrafo sin agregar nada más: ".toList

/-- The summary prompt as built in `process_summaries` (line 149). -/
def prompt_to_summary (text : Str) : Str := summaryChunk ++ text

/-- One reply of the completion endpoint to one request, as seen by the
`while True` loop of `ask_openai` (`src/main.py` lines 89-98): a
`openai.error.Timeout`, some other error, or a successful response. -/
inductive Outcome where
  | timeout
  | failure (e : Str)
  | success (r : Response)

/-- The fixed system message content of `ask_openai`. -/
def systemContent : Str := "You are a helpful assistant.".toList

/-- The two-message conversation built once at the top of `ask_openai`
(`src/main.py` lines 84-87), before the retry loop. -/
def mk_prompt_messages (prompt : Str) : List Prompt :=
  [{ role := Role.system, content := systemContent },
   { role := Role.user, content := prompt }]

/-- The retry loop of `ask_openai`: each iteration issues the same
`msgs`; a timeout is caught and the loop continues, any other error
propagates, a success ends the loop.  Returns the list of requests issued
(one entry per attempt) and the result — `none` when the outcome stream is
exhausted by timeouts, i.e. the loop is still running. -/
def ask_openai_loop (msgs : List Prompt) : List Outcome → List (List Prompt) × Option (Except Str Response)
  | [] => ([], none)
  | Outcome.timeout :: rest =>
    let r := ask_openai_loop msgs rest
    (msgs :: r.1, r.2)
  | Outcome.failure e :: _ => ([msgs], some (Except.error e))
  | Outcome.success r :: _ => ([msgs], some (Except.ok r))

/-- `ask_openai` from `src/main.py` lines 82-100, driven by a stream of
endpoint outcomes. -/
def ask_openai (prompt : Str) (outcomes : List Outcome) : List (List Prompt) × Option (Except Str Response) :=
  ask_openai_loop (mk_prompt_messages prompt) outcomes

/-- Observable actions of the review loops: a prompt constructed and shown,
a completion request answered, a clipboard write. -/
inductive Event where
  | prompt_built (p : Str)
  | asked_openai (p : Str) (r : Response)
  | copied (s : Str)
deriving DecidableEq

/-- Run-aborting errors: the `choice, = response.choices` unpack failing,
or the `assert len(copied) > 0` in `process_summaries` failing. -/
inductive RunErr where
  | unpack
  | assertFail
deriving DecidableEq

/-- Tokens reported by an event: a completion's `usage.total_tokens`. -/
def eventTokens : Event → Nat
  | Event.asked_openai _ r => r.usage.total_tokens
  | _ => 0

/-- Total tokens reported along a trace. -/
def tokenSum (evs : List Event) : Nat := (evs.map eventTokens).sum

/-- Operator decisions and the endpoint's (successful) reply for one run of
`process_alternatives`: the `Ask to OpenAI for this prompt?` answer, the
`Response` the retry loop eventually returns, and the `Copy?` answer. -/
structure AltOracle where
  confirmed : Bool
  response : Response
  will_copy : Bool

/-- `process_alternatives` from `src/main.py` lines 184-226. -/
def process_alternatives (p : Processment) (o : AltOracle) : Except RunErr (Processment × List Event) :=
  let prompt := build_alternatives_prompt p.rune_definition
  if !o.confirmed then Except.ok (p, [Event.prompt_built prompt])
  else
    let response := o.response
    let p' := { p with total_tokens := p.total_tokens + response.usage.total_tokens }
    match response.choices with
    | [choice] =>
      let items := parse_response choice.message.content
      if o.will_copy then
        Except.ok (p', [Event.prompt_built prompt, Event.asked_openai prompt response,
          Event.copied (create_string_from_list items)])
      else
        Except.ok (p', [Event.prompt_built prompt, Event.asked_openai prompt response])
    | _ => Except.error RunErr.unpack

/-- Operator decisions and endpoint reply for one iteration of the
`process_summaries` loop. -/
structure SummStep where
  confirmed : Bool
  response : Response
  will_add : Bool

/-- Decisions for a whole `process_summaries` run: one `SummStep` per
alternative (indexed), plus the final `Copy?` answer. -/
structure SummOracle where
  steps : Nat → SummStep
  will_copy : Bool

/-- The `for i, alternative in enumerate(...)` loop of `process_summaries`
(`src/main.py` lines 147-168).  For each alternative: if the ask is
declined, nothing is contributed; otherwise the completion's content is
appended — twice when `Add?` is answered yes (once inside the `if
will_add:` block, line 166, and once unconditionally after it, line 168),
once when it is answered no.  Returns the summaries gathered, the tokens
consumed and the event trace. -/
def summ_loop (steps : Nat → SummStep) : Nat → List Str → Except RunErr (List Str × Nat × List Event)
  | _, [] => Except.ok ([], 0, [])
  | i, alternative :: rest =>
    let st := steps i
    let prompt := prompt_to_summary alternative
    if !st.confirmed then
      match summ_loop steps (i + 1) rest with
      | Except.ok (summ, tok, evs) => Except.ok (summ, tok, Event.prompt_built prompt :: evs)
      | Except.error e => Except.error e
    else
      match st.response.choices with
      | [choice] =>
        let content := choice.message.content
        let here := if st.will_add then [content, content] else [content]
        match summ_loop steps (i + 1) rest with
        | Except.ok (summ, tok, evs) =>
          Except.ok (here ++ summ, st.response.usage.total_tokens + tok,
            Event.prompt_built prompt :: Event.asked_openai prompt st.response :: evs)
        | Except.error e => Except.error e
      | _ => Except.error RunErr.unpack

/-- `process_summaries` from `src/main.py` lines 143-181: run the loop over
the record's alternatives, then on `Copy?` serialize the summaries,
`assert len(copied) > 0`, and write to the clipboard. -/
def process_summaries (p : Processment) (o : SummOracle) : Except RunErr (Processment × List Event) :=
  match summ_loop o.steps 0 (p.rune_definition.alternatives.getD []) with
  | Except.error e => Except.error e
  | Except.ok (summaries, tok, evs) =>
    let p' := { p with total_tokens := p.total_tokens + tok }
    if o.will_copy then
      let copied := create_string_from_list summaries
      if copied.length > 0 then Except.ok (p', evs ++ [Event.copied copied])
      else Except.error RunErr.assertFail
    else Except.ok (p', evs)

/-- Oracles for one record: decisions for its alternatives stage and for
its summaries stage. -/
structure RecordOracle where
  alt : AltOracle
  summ : SummOracle

/-- What one iteration of `main`'s record loop produced: the record's
accumulated tokens, its event trace, and which stages were dispatched. -/
structure RecordResult where
  tokens : Nat
  events : List Event
  ran_alternatives : Bool
  ran_summaries : Bool
deriving DecidableEq

/-- The body of the `for i, rune_definition in enumerate(...)` loop of
`main` (`src/main.py` lines 243-259): skip complete records, otherwise run
the missing stages in order. -/
def process_record (r : RuneDefinition) (o : RecordOracle) : Except RunErr RecordResult :=
  let p0 : Processment := { rune_definition := r, total_tokens := 0 }
  if truthy r.alternatives && truthy r.summaries then
    Except.ok { tokens := 0, events := [], ran_alternatives := false, ran_summaries := false }
  else
    match (if !truthy p0.rune_definition.alternatives then
             (process_alternatives p0 o.alt).map (fun pe => (pe.1, pe.2, true))
           else Except.ok (p0, [], false)) with
    | Except.error e => Except.error e
    | Except.ok (p1, ev1, ranA) =>
      match (if truthy p1.rune_definition.alternatives && !truthy p1.rune_definition.summaries then
               (process_summaries p1 o.summ).map (fun pe => (pe.1, pe.2, true))
             else Except.ok (p1, [], false)) with
      | Except.error e => Except.error e
      | Except.ok (p2, ev2, ranS) =>
        Except.ok (RecordResult.mk p2.total_tokens (ev1 ++ ev2) ranA ranS)

/-- `main`'s record loop with its run-wide `total_tokens` accumulator
(`src/main.py` lines 233, 243-262). -/
def main_loop (oracle : Nat → RecordOracle) : Nat → List RuneDefinition → Except RunErr (Nat × List Event)
  | _, [] => Except.ok (0, [])
  | i, r :: rest =>
    match process_record r (oracle i) with
    | Except.error e => Except.error e
    | Except.ok res =>
      match main_loop oracle (i + 1) rest with
      | Except.ok (tot, evs) => Except.ok (res.tokens + tot, res.events ++ evs)
      | Except.error e => Except.error e

/-- The run-wide token count of a run, when it completes. -/
def runTokens (r : Except RunErr (Nat × List Event)) : Option Nat :=
  match r with
  | Except.ok (t, _) => some t
  | Except.error _ => none

/-- Boolean substring test: `p` occurs contiguously somewhere in the second
argument. -/
def containsSub (p : Str) : Str → Bool
  | [] => p.isEmpty
  | c :: rest => p.isPrefixOf (c :: rest) || containsSub p rest

/-- Propositional substring occurrence. -/
def occursIn (p s : Str) : Prop := ∃ u v, s = u ++ p ++ v

/-! ## Concrete sample values used by counterexamples and witnesses -/

/-- The string `"2.0"`: contains a digit run followed by a period. -/
def sampleTwoDotZero : Str := "2.0".toList

/-- The string `"0"`. -/
def sampleZero : Str := "0".toList

/-- The line `"a 1. b"`: an enumeration-like marker in the middle. -/
def sampleLineC3 : Str := "a 1. b".toList

/-- What the code produces for `sampleLineC3`. -/
def sampleCleanC3 : Str := "a  b".toList

/-- A digit-free prefix. -/
def sampleA : Str := "x ".toList

/-- A digit run. -/
def sampleDs : Str := "12".toList

/-- A digit-free tail. -/
def sampleB : Str := " y".toList

/-- A whitespace-only input. -/
def sampleAllWs : Str := "  \n ".toList

/-- The string `"hello"`. -/
def sampleHello : Str := "hello".toList

/-- The string `"wo rld"`. -/
def sampleWorld : Str := "wo rld".toList

/-- A two-element round-trip sample. -/
def itemsC2 : List Str := [sampleHello, sampleWorld]

/-- The string `"x"`. -/
def sampleX : Str := "x".toList

/-- The string `"y"`. -/
def sampleY : Str := "y".toList

/-- The rendering of `["x"]`. -/
def sampleQuotedX : Str := "\"x\"\n".toList

/-- The rendering of `["x","y"]`. -/
def sampleQuotedXY : Str := "\"x\",\n\"y\"\n".toList

/-- A sample completion content string. -/
def sampleContentC : Str := "c".toList

/-- A sample alternative string. -/
def sampleAltA : Str := "a".toList

/-- A sample response id. -/
def sampleId : Str := "chatcmpl-1".toList

/-- A sample response object tag. -/
def sampleObj : Str := "chat.completion".toList

/-- The model tag used by `ask_openai`. -/
def sampleModel : Str := "gpt-3.5-turbo".toList

/-- A response carrying exactly one choice with the given content and
reporting the given `total_tokens`. -/
def mkResponse (content : Str) (tk : Nat) : Response :=
  Response.mk sampleId sampleObj 0 sampleModel (Usage.mk 0 0 tk)
    [Choice.mk (Message.mk Role.assistant content) (some FinishReason.stop) 0]

/-- A rune name with the `RUNA` token. -/
def sampleRunaFoo : Str := "RUNA FOO".toList

/-- A sample description. -/
def sampleDesc : Str := "d".toList

/-- A description that itself contains the word `invertida`. -/
def sampleInvDesc : Str := "una runa invertida algo".toList

/-- Summary steps that ask and accept every item. -/
def stepsAdd : Nat → SummStep :=
  fun _ => SummStep.mk true (mkResponse sampleContentC 5) true

/-- Summary steps that ask every item but decline every `Add?`. -/
def stepsNoAdd : Nat → SummStep :=
  fun _ => SummStep.mk true (mkResponse sampleContentC 5) false

/-- The trace of one asked summary iteration over `sampleAltA`. -/
def evC1 : List Event :=
  [Event.prompt_built (prompt_to_summary sampleAltA),
   Event.asked_openai (prompt_to_summary sampleAltA) (mkResponse sampleContentC 5)]

/-- An alternatives-stage oracle that declines the ask confirmation. -/
def altOracleNo : AltOracle := AltOracle.mk false (mkResponse sampleContentC 0) false

/-- A summaries-stage oracle that declines everything. -/
def summOracleNo : SummOracle :=
  SummOracle.mk (fun _ => SummStep.mk false (mkResponse sampleContentC 0) false) false

/-- A record oracle that declines everything. -/
def recOracleNo : RecordOracle := RecordOracle.mk altOracleNo summOracleNo

/-- A complete record: both stages present and non-empty. -/
def recC4 : RuneDefinition :=
  RuneDefinition.mk sampleRunaFoo sampleDesc RuneType.normal
    (some [sampleAltA]) (some [sampleContentC])

/-- A record with neither stage present. -/
def recC5 : RuneDefinition :=
  RuneDefinition.mk sampleRunaFoo sampleDesc RuneType.normal none none

/-- What `process_record` produces for `recC5` under `recOracleNo`. -/
def resC5 : RecordResult :=
  RecordResult.mk 0 [Event.prompt_built (build_alternatives_prompt recC5)] true false

/-- A record with alternatives present and summaries missing. -/
def recC9 : RuneDefinition :=
  RuneDefinition.mk sampleRunaFoo sampleDesc RuneType.normal (some [sampleAltA]) none

/-- Oracles for a two-record run whose completions report 10 and 15
tokens. -/
def oracleC9 : Nat → RecordOracle :=
  fun i =>
    RecordOracle.mk altOracleNo
      (SummOracle.mk
        (fun _ => SummStep.mk true
          (mkResponse sampleContentC (if i = 0 then 10 else 15)) false) false)

/-- The two-record run. -/
def recordsC9 : List RuneDefinition := [recC9, recC9]

/-- The trace of the two-record run. -/
def evsC9 : List Event :=
  [Event.prompt_built (prompt_to_summary sampleAltA),
   Event.asked_openai (prompt_to_summary sampleAltA) (mkResponse sampleContentC 10),
   Event.prompt_built (prompt_to_summary sampleAltA),
   Event.asked_openai (prompt_to_summary sampleAltA) (mkResponse sampleContentC 15)]

/-- A processment over `recC9`. -/
def procC10 : Processment := Processment.mk recC9 0

/-- A summaries oracle that declines every ask but confirms the copy. -/
def summOracleC10 : SummOracle :=
  SummOracle.mk (fun _ => SummStep.mk false (mkResponse sampleContentC 0) false) true

/-- A normal-kind record whose description contains `invertida`. -/
def recC8ce : RuneDefinition :=
  RuneDefinition.mk sampleX sampleInvDesc RuneType.normal none none

/-- A normal-kind record free of `invertida`. -/
def recC8n : RuneDefinition :=
  RuneDefinition.mk sampleRunaFoo sampleDesc RuneType.normal none none

/-- An invert-kind record. -/
def recC8i : RuneDefinition :=
  RuneDefinition.mk sampleRunaFoo sampleDesc RuneType.invert none none

/-- The single choice inside `mkResponse sampleContentC tk`. -/
def sampleChoiceC : Choice :=
  Choice.mk (Message.mk Role.assistant sampleContentC) (some FinishReason.stop) 0

/-! ## Lemmas about `trim`, `splitOnChar`, `subGo` and `natChars` -/

theorem trim_cons_ws {c : Char} {l : Str} (h : c.isWhitespace = true) :
    trim (c :: l) = trim l := by
  simp [trim, List.dropWhile_cons, h]

theorem mem_dropWhile_of_neg {p : Char → Bool} {c : Char} (hc : p c = false) :
    ∀ l : Str, c ∈ l → c ∈ l.dropWhile p := by
  intro l
  induction l with
  | nil => intro h; exact absurd h (List.not_mem_nil c)
  | cons a t ih =>
    intro hm
    by_cases ha : p a = true
    · rw [List.dropWhile_cons, if_pos ha]
      rcases List.mem_cons.mp hm with h | h
      · subst h; rw [hc] at ha; cases ha
      · exact ih h
    · rw [List.dropWhile_cons, if_neg ha]
      exact hm

theorem trim_ne_nil_of_mem {c : Char} {l : Str} (hm : c ∈ l)
    (hw : c.isWhitespace = false) : trim l ≠ [] := by
  intro h
  unfold trim at h
  rw [List.reverse_eq_nil_iff, List.dropWhile_eq_nil_iff] at h
  have h1 : c ∈ l.dropWhile Char.isWhitespace := mem_dropWhile_of_neg hw l hm
  have h2 : c ∈ (l.dropWhile Char.isWhitespace).reverse := List.mem_reverse.mpr h1
  have := h c h2
  rw [hw] at this
  cases this

theorem trim_eq_nil_of_all_ws {l : Str} (h : ∀ c ∈ l, c.isWhitespace = true) :
    trim l = [] := by
  unfold trim
  rw [List.dropWhile_eq_nil_iff.mpr h]
  rfl

theorem splitOnChar_not_mem {sep : Char} : ∀ {l : Str}, sep ∉ l →
    splitOnChar sep l = [l] := by
  intro l
  induction l with
  | nil => intro _; rfl
  | cons c rest ih =>
    intro h
    have hc : ¬ c = sep := fun hh => h (hh ▸ List.mem_cons_self c rest)
    have hr : sep ∉ rest := fun hh => h (List.mem_cons_of_mem c hh)
    rw [splitOnChar, if_neg hc, ih hr, consHead]

theorem splitOnChar_append_cons {sep : Char} : ∀ (a b : Str), sep ∉ a →
    splitOnChar sep (a ++ sep :: b) = a :: splitOnChar sep b := by
  intro a
  induction a with
  | nil =>
    intro b _
    rw [List.nil_append, splitOnChar, if_pos rfl]
  | cons c a' ih =>
    intro b h
    have hc : ¬ c = sep := fun hh => h (hh ▸ List.mem_cons_self c a')
    have ha : sep ∉ a' := fun hh => h (List.mem_cons_of_mem c hh)
    rw [List.cons_append, splitOnChar, if_neg hc, ih b ha, consHead]

theorem splitOnChar_joinLines : ∀ (lines : List Str), lines ≠ [] →
    (∀ l ∈ lines, '\n' ∉ l) → splitOnChar '\n' (joinLines lines) = lines := by
  intro lines
  induction lines with
  | nil => intro h; cases h rfl
  | cons l ls ih =>
    intro _ hmem
    cases ls with
    | nil =>
      have := splitOnChar_not_mem (hmem l (List.mem_cons_self l []))
      simpa [joinLines] using this
    | cons l' ls' =>
      have h1 : joinLines (l :: l' :: ls') = l ++ '\n' :: joinLines (l' :: ls') := rfl
      rw [h1, splitOnChar_append_cons _ _ (hmem l (List.mem_cons_self l (l' :: ls')))]
      rw [ih (by simp) (fun x hx => hmem x (List.mem_cons_of_mem l hx))]

theorem splitOnChar_ws : ∀ (w : Str), (∀ c ∈ w, c.isWhitespace = true) →
    ∀ l ∈ splitOnChar '\n' w, ∀ c ∈ l, c.isWhitespace = true := by
  intro w
  induction w with
  | nil =>
    intro _ l hl c hc
    rw [splitOnChar, List.mem_singleton] at hl
    subst hl
    cases hc
  | cons a rest ih =>
    intro h l hl c hc
    have ha : a.isWhitespace = true := h a (List.mem_cons_self a rest)
    have hrest : ∀ x ∈ rest, x.isWhitespace = true :=
      fun x hx => h x (List.mem_cons_of_mem a hx)
    by_cases hnl : a = '\n'
    · rw [splitOnChar, if_pos hnl] at hl
      rcases List.mem_cons.mp hl with rfl | hl
      · cases hc
      · exact ih hrest l hl c hc
    · rw [splitOnChar, if_neg hnl] at hl
      cases hsp : splitOnChar '\n' rest with
      | nil =>
        rw [hsp, consHead, List.mem_singleton] at hl
        subst hl
        rw [List.mem_singleton] at hc
        subst hc
        exact ha
      | cons l' ls =>
        rw [hsp, consHead] at hl
        rcases List.mem_cons.mp hl with rfl | hl
        · rcases List.mem_cons.mp hc with rfl | hc
          · exact ha
          · exact ih hrest l' (hsp ▸ List.mem_cons_self l' ls) c hc
        · exact ih hrest l (hsp ▸ List.mem_cons_of_mem l' hl) c hc

theorem subGo_cons_digit {c : Char} (h : c.isDigit = true) (run rest : Str) :
    subGo run (c :: rest) = subGo (c :: run) rest := by
  simp [subGo, h]

theorem subGo_cons_dot_empty (rest : Str) :
    subGo [] ('.' :: rest) = '.' :: subGo [] rest := by
  have hd : ('.' : Char).isDigit = false := by decide
  simp [subGo, hd]

theorem subGo_cons_dot_run (d : Char) (run rest : Str) :
    subGo (d :: run) ('.' :: rest) = subGo [] rest := by
  have hd : ('.' : Char).isDigit = false := by decide
  simp [subGo, hd]

theorem subGo_cons_other {c : Char} (h1 : c.isDigit = false) (h2 : c ≠ '.')
    (run rest : Str) :
    subGo run (c :: rest) = run.reverse ++ c :: subGo [] rest := by
  simp [subGo, h1, h2]

theorem subGo_nodigit_prefix : ∀ (a r : Str), (∀ c ∈ a, c.isDigit = false) →
    subGo [] (a ++ r) = a ++ subGo [] r := by
  intro a
  induction a with
  | nil => intro r _; rfl
  | cons c a' ih =>
    intro r h
    have hc : c.isDigit = false := h c (List.mem_cons_self c a')
    have ha : ∀ x ∈ a', x.isDigit = false := fun x hx => h x (List.mem_cons_of_mem c hx)
    rw [List.cons_append]
    by_cases hdot : c = '.'
    · subst hdot
      rw [subGo_cons_dot_empty, ih r ha, List.cons_append]
    · rw [subGo_cons_other hc hdot, ih r ha]
      simp

theorem subGo_digits_dot : ∀ (ds run b : Str), (∀ c ∈ ds, c.isDigit = true) →
    (run ≠ [] ∨ ds ≠ []) → subGo run (ds ++ '.' :: b) = subGo [] b := by
  intro ds
  induction ds with
  | nil =>
    intro run b _ hne
    have hrun : run ≠ [] := by
      rcases hne with h | h
      · exact h
      · cases h rfl
    obtain ⟨d, run', rfl⟩ : ∃ d run', run = d :: run' := by
      cases run with
      | nil => cases hrun rfl
      | cons d r => exact ⟨d, r, rfl⟩
    simpa using subGo_cons_dot_run d run' b
  | cons d ds' ih =>
    intro run b h hne
    have hd : d.isDigit = true := h d (List.mem_cons_self d ds')
    rw [List.cons_append, subGo_cons_digit hd]
    exact ih (d :: run) b (fun x hx => h x (List.mem_cons_of_mem d hx)) (Or.inl (by simp))

theorem noMarker_tail : ∀ {a : Char} {t : Str}, noMarker (a :: t) = true →
    noMarker t = true := by
  intro a t h
  cases t with
  | nil => rfl
  | cons b r =>
    rw [noMarker, Bool.and_eq_true] at h
    exact h.2

theorem noMarker_digit_head {c : Char} {rest : Str} (h : noMarker (c :: rest) = true)
    (hc : c.isDigit = true) : rest.head? ≠ some '.' := by
  intro hh
  cases rest with
  | nil => cases hh
  | cons b r =>
    have hb : b = '.' := by injection hh
    subst hb
    rw [noMarker, Bool.and_eq_true] at h
    rcases h with ⟨h1, _⟩
    rw [hc] at h1
    simp at h1

theorem subGo_noMarker : ∀ (l run : Str), (∀ c ∈ run, c.isDigit = true) →
    noMarker l = true → (l.head? = some '.' → run = []) →
    subGo run l = run.reverse ++ l := by
  intro l
  induction l with
  | nil => intro run _ _ _; simp [subGo]
  | cons c rest ih =>
    intro run hrun hnm hhead
    by_cases hd : c.isDigit = true
    · rw [subGo_cons_digit hd]
      have hh : rest.head? = some '.' → c :: run = [] := by
        intro hx
        exact absurd hx (noMarker_digit_head hnm hd)
      have hrun' : ∀ x ∈ c :: run, x.isDigit = true := by
        intro x hx
        rcases List.mem_cons.mp hx with rfl | hx
        · exact hd
        · exact hrun x hx
      rw [ih (c :: run) hrun' (noMarker_tail hnm) hh]
      simp
    · have hd' : c.isDigit = false := Bool.not_eq_true (c.isDigit) |>.mp hd
      by_cases hdot : c = '.'
      · subst hdot
        have hr : run = [] := hhead rfl
        subst hr
        rw [subGo_cons_dot_empty, ih [] (by intro x hx; cases hx) (noMarker_tail hnm) (fun _ => rfl)]
        simp
      · rw [subGo_cons_other hd' hdot, ih [] (by intro x hx; cases hx) (noMarker_tail hnm) (fun _ => rfl)]
        simp

theorem subItem_of_noMarker {l : Str} (h : noMarker l = true) : subItem l = l := by
  have := subGo_noMarker l [] (by intro x hx; cases hx) h (fun _ => rfl)
  simpa [subItem] using this

theorem digitChar_isDigit {n : Nat} (h : n < 10) : (digitChar n).isDigit = true := by
  interval_cases n <;> decide

theorem natCharsAux_spec : ∀ (fuel n : Nat), n < fuel →
    natCharsAux fuel n ≠ [] ∧ ∀ c ∈ natCharsAux fuel n, c.isDigit = true := by
  intro fuel
  induction fuel with
  | zero => intro n h; omega
  | succ f ih =>
    intro n _
    by_cases h10 : n < 10
    · rw [natCharsAux, if_pos h10]
      refine ⟨by simp, ?_⟩
      intro c hc
      rw [List.mem_singleton] at hc
      subst hc
      exact digitChar_isDigit h10
    · rw [natCharsAux, if_neg h10]
      have hdiv : n / 10 < f := by
        have := Nat.div_lt_self (show 0 < n by omega) (show 1 < 10 by omega)
        omega
      rcases ih (n / 10) hdiv with ⟨_, hdig⟩
      refine ⟨by simp, ?_⟩
      intro c hc
      rcases List.mem_append.mp hc with hc | hc
      · exact hdig c hc
      · rw [List.mem_singleton] at hc
        subst hc
        exact digitChar_isDigit (Nat.mod_lt n (by omega))

theorem natChars_ne_nil (n : Nat) : natChars n ≠ [] :=
  (natCharsAux_spec (n + 1) n (Nat.lt_succ_self n)).1

theorem natChars_digits (n : Nat) : ∀ c ∈ natChars n, c.isDigit = true :=
  (natCharsAux_spec (n + 1) n (Nat.lt_succ_self n)).2

theorem isDigit_not_ws {c : Char} (h : c.isDigit = true) : c.isWhitespace = false := by
  cases hw : c.isWhitespace
  · rfl
  · exfalso
    have hw' := hw
    simp [Char.isWhitespace] at hw'
    rcases hw' with ((h1 | h1) | h1) | h1 <;> subst h1 <;> exact absurd h (by decide)

theorem newline_not_mem_natChars (n : Nat) : '\n' ∉ natChars n := by
  intro h
  have := natChars_digits n '\n' h
  exact absurd this (by decide)

theorem numbered_line_no_newline {n : Nat} {s : Str} (hs : '\n' ∉ s) :
    '\n' ∉ natChars n ++ '.' :: ' ' :: s := by
  intro h
  rcases List.mem_append.mp h with h | h
  · exact newline_not_mem_natChars n h
  · rcases List.mem_cons.mp h with h | h
    · exact absurd h (by decide)
    · rcases List.mem_cons.mp h with h | h
      · exact absurd h (by decide)
      · exact hs h

theorem trim_numbered_line_ne_nil {n : Nat} {s : Str} :
    trim (natChars n ++ '.' :: ' ' :: s) ≠ [] := by
  obtain ⟨c, hc⟩ : ∃ c, c ∈ natChars n := by
    cases h : natChars n with
    | nil => exact absurd h (natChars_ne_nil n)
    | cons a t => exact ⟨a, h ▸ List.mem_cons_self a t⟩
  exact trim_ne_nil_of_mem (List.mem_append.mpr (Or.inl hc))
    (isDigit_not_ws (natChars_digits n c hc))

theorem clean_numbered_line {n : Nat} {s : Str} (h : noMarker s = true) :
    trim (subItem (natChars n ++ '.' :: ' ' :: s)) = trim s := by
  have h1 : subGo [] (natChars n ++ '.' :: ' ' :: s) = subGo [] (' ' :: s) :=
    subGo_digits_dot (natChars n) [] (' ' :: s) (natChars_digits n)
      (Or.inr (natChars_ne_nil n))
  have h2 : subGo [] (' ' :: s) = ' ' :: s := by
    rw [subGo_cons_other (by decide) (by decide)]
    have := subGo_noMarker s [] (by intro x hx; cases hx) h (fun _ => rfl)
    rw [this]
    simp
  rw [subItem, h1, h2]
  exact trim_cons_ws (by decide)

theorem roundtrip_lines : ∀ (items : List Str) (n : Nat),
    (∀ s ∈ items, noMarker s = true) →
    ((number_from n items).filter (fun x => !(trim x).isEmpty)).map
      (fun x => trim (subItem x)) = items.map trim := by
  intro items
  induction items with
  | nil => intro n _; rfl
  | cons s rest ih =>
    intro n h
    rw [number_from, List.filter_cons]
    have hkeep : (!(trim (natChars n ++ '.' :: ' ' :: s)).isEmpty) = true := by
      have hne := trim_numbered_line_ne_nil (n := n) (s := s)
      simpa [List.isEmpty_iff] using hne
    rw [if_pos hkeep, List.map_cons]
    rw [clean_numbered_line (h s (List.mem_cons_self s rest))]
    rw [ih (n + 1) (fun x hx => h x (List.mem_cons_of_mem s hx))]
    rfl

theorem number_from_no_newline : ∀ (items : List Str) (n : Nat),
    (∀ s ∈ items, '\n' ∉ s) → ∀ l ∈ number_from n items, '\n' ∉ l := by
  intro items
  induction items with
  | nil => intro n _ l hl; cases hl
  | cons s rest ih =>
    intro n h l hl
    rw [number_from] at hl
    rcases List.mem_cons.mp hl with rfl | hl
    · exact numbered_line_no_newline (h s (List.mem_cons_self s rest))
    · exact ih (n + 1) (fun x hx => h x (List.mem_cons_of_mem s hx)) l hl

theorem parse_response_all_ws (w : Str) (h : ∀ c ∈ w, c.isWhitespace = true) :
    parse_response w = [] := by
  rw [parse_response]
  have hf : (splitOnChar '\n' w).filter (fun x => !(trim x).isEmpty) = [] := by
    rw [List.filter_eq_nil_iff]
    intro l hl
    have hws := splitOnChar_ws w h l hl
    have ht : trim l = [] := trim_eq_nil_of_all_ws hws
    simp [ht]
  rw [hf]
  rfl

theorem subGo_nil_of_nodigit {b : Str} (h : ∀ c ∈ b, c.isDigit = false) :
    subGo [] b = b := by
  have := subGo_nodigit_prefix b [] h
  simpa [subGo] using this

/-! ## Claim C2: `parse_response` round-trip -/

/-- C2 (counterexample): the round-trip fails as stated.  For the list
`["2.0"]` — no element contains a newline — numbering, joining and parsing
yields `["0"]`, which differs from the original even modulo surrounding
whitespace. -/
theorem parse_roundtrip_counterexample :
    parse_response (joinLines (number_from 1 [sampleTwoDotZero])) = [sampleZero] ∧
    [sampleZero] ≠ [sampleTwoDotZero].map trim := by
  exact ⟨by decide, by decide⟩

/-- C2 (amended): for every list of strings none of which contains a
newline or a digit-run-followed-by-period substring, prefixing each element
with its 1-based index and `". "`, joining with newlines, and parsing with
`parse_response` reproduces the original list exactly, modulo surrounding
whitespace of each element. -/
theorem parse_roundtrip (items : List Str)
    (h : ∀ s ∈ items, '\n' ∉ s ∧ noMarker s = true) :
    parse_response (joinLines (number_from 1 items)) = items.map trim := by
  cases items with
  | nil => rfl
  | cons s rest =>
    have hne : number_from 1 (s :: rest) ≠ [] := by
      rw [number_from]
      simp
    have hnl : ∀ l ∈ number_from 1 (s :: rest), '\n' ∉ l :=
      number_from_no_newline (s :: rest) 1 (fun x hx => (h x hx).1)
    rw [parse_response, splitOnChar_joinLines _ hne hnl]
    exact roundtrip_lines (s :: rest) 1 (fun x hx => (h x hx).2)

/-- C2 witness: the amended round-trip at `["hello", "wo rld"]`. -/
theorem parse_roundtrip_witness :
    parse_response (joinLines (number_from 1 itemsC2)) = itemsC2.map trim :=
  parse_roundtrip itemsC2 (by decide)

theorem length_dropWhile_isDigit_le :
    ∀ l : Str, (l.dropWhile Char.isDigit).length ≤ l.length := by
  intro l
  induction l with
  | nil => simp
  | cons x xs ih =>
    rw [List.dropWhile_cons]
    by_cases hx : x.isDigit = true
    · rw [if_pos hx]
      exact Nat.le_succ_of_le ih
    · rw [if_neg hx]

theorem subGo_run_flush : ∀ (l run : Str),
    (l.dropWhile Char.isDigit).head? ≠ some '.' →
    subGo run l = run.reverse ++ subGo [] l := by
  intro l
  induction l with
  | nil =>
    intro run _
    simp [subGo]
  | cons c rest ih =>
    intro run h
    by_cases hd : c.isDigit = true
    · have h' : (rest.dropWhile Char.isDigit).head? ≠ some '.' := by
        rw [List.dropWhile_cons, if_pos hd] at h
        exact h
      rw [subGo_cons_digit hd, ih (c :: run) h', subGo_cons_digit hd, ih [c] h']
      simp
    · have hd' : c.isDigit = false := by simpa using hd
      by_cases hdot : c = '.'
      · exfalso
        apply h
        rw [List.dropWhile_cons, if_neg hd, hdot]
        rfl
      · rw [subGo_cons_other hd' hdot, subGo_cons_other hd' hdot]
        simp

theorem strip_markers_spec_nil : strip_markers_spec [] = [] := by
  simp [strip_markers_spec]

theorem strip_markers_spec_cons_nodigit {c : Char} (h : c.isDigit = false)
    (rest : Str) :
    strip_markers_spec (c :: rest) = c :: strip_markers_spec rest := by
  rw [strip_markers_spec]
  simp [h]

theorem strip_markers_spec_cons_digit_dot {c : Char} (h : c.isDigit = true)
    {rest tail : Str} (hds : rest.dropWhile Char.isDigit = '.' :: tail) :
    strip_markers_spec (c :: rest) = strip_markers_spec tail := by
  rw [strip_markers_spec]
  simp [h, hds]

theorem strip_markers_spec_cons_digit_nodot {c : Char} (h : c.isDigit = true)
    {rest : Str} (hds : (rest.dropWhile Char.isDigit).head? ≠ some '.') :
    strip_markers_spec (c :: rest) = c :: strip_markers_spec rest := by
  rw [strip_markers_spec]
  simp [h, hds]

theorem subItem_eq_strip_markers_spec : ∀ l : Str, subItem l = strip_markers_spec l := by
  have main : ∀ (n : Nat) (l : Str), l.length ≤ n →
      subItem l = strip_markers_spec l := by
    intro n
    induction n with
    | zero =>
      intro l hl
      have hz : l = [] := List.length_eq_zero.mp (Nat.le_zero.mp hl)
      subst hz
      rw [strip_markers_spec_nil]
      rfl
    | succ k ih =>
      intro l hl
      cases l with
      | nil =>
        rw [strip_markers_spec_nil]
        rfl
      | cons c rest =>
        simp only [List.length_cons] at hl
        by_cases hd : c.isDigit = true
        · by_cases hdot : (rest.dropWhile Char.isDigit).head? = some '.'
          · obtain ⟨tail, hds⟩ : ∃ t, rest.dropWhile Char.isDigit = '.' :: t := by
              cases hx : rest.dropWhile Char.isDigit with
              | nil =>
                rw [hx] at hdot
                cases hdot
              | cons y t =>
                rw [hx] at hdot
                injection hdot with hy
                exact ⟨t, by rw [hy]⟩
            have hrest : rest = rest.takeWhile Char.isDigit ++ '.' :: tail := by
              conv_lhs => rw [← List.takeWhile_append_dropWhile Char.isDigit rest]
              rw [hds]
            have hdigits : ∀ a ∈ c :: rest.takeWhile Char.isDigit, a.isDigit = true := by
              intro a ha
              rcases List.mem_cons.mp ha with rfl | ha
              · exact hd
              · exact List.mem_takeWhile_imp ha
            have hsplit : c :: rest = (c :: rest.takeWhile Char.isDigit) ++ '.' :: tail := by
              rw [List.cons_append, ← hrest]
            have hsub : subItem (c :: rest) = subItem tail := by
              rw [subItem, subItem, hsplit]
              exact subGo_digits_dot _ [] tail hdigits (Or.inr (by simp))
            have hlen : tail.length ≤ k := by
              have h1 := length_dropWhile_isDigit_le rest
              rw [hds] at h1
              simp only [List.length_cons] at h1
              omega
            rw [hsub, strip_markers_spec_cons_digit_dot hd hds]
            exact ih tail hlen
          · have hflush : subGo [c] rest = [c].reverse ++ subGo [] rest :=
              subGo_run_flush rest [c] hdot
            have hlen : rest.length ≤ k := by omega
            rw [subItem, subGo_cons_digit hd, hflush,
              strip_markers_spec_cons_digit_nodot hd hdot]
            have hr : subGo [] rest = strip_markers_spec rest := ih rest hlen
            rw [show subGo ([] : Str) rest = subItem rest from rfl, ih rest hlen]
            simp
        · have hd' : c.isDigit = false := by simpa using hd
          have hlen : rest.length ≤ k := by omega
          by_cases hdot : c = '.'
          · subst hdot
            rw [subItem, subGo_cons_dot_empty, strip_markers_spec_cons_nodigit hd',
              show subGo ([] : Str) rest = subItem rest from rfl, ih rest hlen]
          · rw [subItem, subGo_cons_other hd' hdot, strip_markers_spec_cons_nodigit hd',
              show subGo ([] : Str) rest = subItem rest from rfl, ih rest hlen]
            simp
  intro l
  exact main l.length l (Nat.le_refl _)

theorem parse_response_eq_spec_reading :
    ∀ s : Str, parse_response s = parse_response_spec_reading s := by
  intro s
  rw [parse_response, parse_response_spec_reading]
  exact List.map_congr_left (fun x _ => by rw [subItem_eq_strip_markers_spec])

/-! ## Claim C3: what `parse_response` strips -/

/-- C3 (counterexample): on `"a 1. b"` the code deletes the mid-line
digit-period sequence, producing `"a  b"`, while the claim's
leading-marker-only reading leaves the line as `"a 1. b"`. -/
theorem parse_response_mid_marker_counterexample :
    parse_response sampleLineC3 = [sampleCleanC3] ∧
    parse_response_leading_only sampleLineC3 = [sampleLineC3] ∧
    parse_response sampleLineC3 ≠ parse_response_leading_only sampleLineC3 := by
  exact ⟨by decide, by decide, by decide⟩

/-- C3 (amended): for every input string, `parse_response` splits on line
breaks, discards lines that are empty after trimming, deletes every
digit-run-followed-by-period occurrence — leftmost first, wherever it sits
in the line, not only at the start — and trims again, returning the
cleaned lines in their original order: the parser equals the one built
from the independent description `strip_markers_spec`.  In particular a
marker in the middle of a line is removed, and whitespace-only input
yields the empty list. -/
theorem parse_response_strips_all_markers :
    (∀ s : Str, parse_response s = parse_response_spec_reading s) ∧
    (∀ a ds b : Str, (∀ c ∈ a, c.isDigit = false) → (∀ c ∈ b, c.isDigit = false) →
        ds ≠ [] → (∀ c ∈ ds, c.isDigit = true) → '\n' ∉ a → '\n' ∉ b →
        parse_response (a ++ (ds ++ '.' :: b)) = [trim (a ++ b)]) ∧
    (∀ w : Str, (∀ c ∈ w, c.isWhitespace = true) → parse_response w = []) := by
  refine ⟨parse_response_eq_spec_reading, ?_, ?_⟩
  · intro a ds b ha hb hds hdig hna hnb
    obtain ⟨d, ds', rfl⟩ : ∃ d t, ds = d :: t := by
      cases ds with
      | nil => cases hds rfl
      | cons d t => exact ⟨d, t, rfl⟩
    have hd : d.isDigit = true := hdig d (List.mem_cons_self d ds')
    have hnl : '\n' ∉ a ++ ((d :: ds') ++ '.' :: b) := by
      intro hmem
      rcases List.mem_append.mp hmem with h1 | h1
      · exact hna h1
      · rcases List.mem_append.mp h1 with h2 | h2
        · exact absurd (hdig _ h2) (by decide)
        · rcases List.mem_cons.mp h2 with h3 | h3
          · exact absurd h3 (by decide)
          · exact hnb h3
    have hmemd : d ∈ a ++ ((d :: ds') ++ '.' :: b) :=
      List.mem_append.mpr (Or.inr (List.mem_append.mpr (Or.inl (List.mem_cons_self d ds'))))
    have hkeep : (!(trim (a ++ ((d :: ds') ++ '.' :: b))).isEmpty) = true := by
      have := trim_ne_nil_of_mem hmemd (isDigit_not_ws hd)
      simpa [List.isEmpty_iff] using this
    have hsub : subItem (a ++ ((d :: ds') ++ '.' :: b)) = a ++ b := by
      rw [subItem, subGo_nodigit_prefix a _ ha,
        subGo_digits_dot (d :: ds') [] b hdig (Or.inr (by simp)),
        subGo_nil_of_nodigit hb]
    rw [parse_response, splitOnChar_not_mem hnl, List.filter_cons, if_pos hkeep]
    simp only [List.filter_nil, List.map_cons, List.map_nil, hsub]
  · exact fun w hw => parse_response_all_ws w hw

/-- C3 witness: the amended theorem at the line `"a 1. b"` of the
counterexample, at the line `"x 12. y"`, and at the whitespace-only
input. -/
theorem parse_response_strips_all_markers_witness :
    parse_response sampleLineC3 = parse_response_spec_reading sampleLineC3 ∧
    parse_response (sampleA ++ (sampleDs ++ '.' :: sampleB)) = [trim (sampleA ++ sampleB)] ∧
    parse_response sampleAllWs = [] :=
  ⟨parse_response_strips_all_markers.1 sampleLineC3,
   parse_response_strips_all_markers.2.1 sampleA sampleDs sampleB (by decide) (by decide)
      (by decide) (by decide) (by decide) (by decide),
   parse_response_strips_all_markers.2.2 sampleAllWs (by decide)⟩

/-! ## Claim C7: `create_string_from_list` format -/

theorem csfGo_render_spec : ∀ (items : List Str) (i total : Nat),
    total = i + items.length → csfGo total i items = render_spec items := by
  intro items
  induction items with
  | nil => intro i total _; rfl
  | cons x rest ih =>
    intro i total htot
    cases rest with
    | nil =>
      have hlt : ¬ i < total - 1 := by
        simp [List.length] at htot
        omega
      rw [csfGo, if_neg hlt, render_spec]
      simp [csfGo]
    | cons y rest' =>
      have hlen : total = i + (rest'.length + 2) := by
        simpa [List.length] using htot
      have hlt : i < total - 1 := by omega
      rw [csfGo, if_pos hlt, ih (i + 1) total (by simp [List.length]; omega)]
      have hr : render_spec (x :: y :: rest') =
          '"' :: x ++ ['"', ',', '\n'] ++ render_spec (y :: rest') := rfl
      rw [hr]
      simp

/-- C7: `create_string_from_list` renders each item double-quoted on its
own line, with a trailing comma on every line except the last; in
particular `["x"]` yields exactly `"x"` plus newline and `["x","y"]`
yields exactly `"x",` newline `"y"` newline. -/
theorem create_string_from_list_format :
    (∀ items : List Str, create_string_from_list items = render_spec items) ∧
    create_string_from_list [sampleX] = sampleQuotedX ∧
    create_string_from_list [sampleX, sampleY] = sampleQuotedXY := by
  refine ⟨?_, by decide, by decide⟩
  intro items
  exact csfGo_render_spec items 0 items.length (by omega)

/-! ## Claim C6: the `ask_openai` retry loop -/

theorem ask_openai_loop_success : ∀ (n : Nat) (msgs : List Prompt) (r : Response)
    (rest : List Outcome),
    ask_openai_loop msgs (List.replicate n Outcome.timeout ++ Outcome.success r :: rest)
      = (List.replicate (n + 1) msgs, some (Except.ok r)) := by
  intro n
  induction n with
  | zero => intro msgs r rest; rfl
  | succ k ih =>
    intro msgs r rest
    simp only [List.replicate_succ, List.cons_append, ask_openai_loop, List.append_eq]
    rw [ih msgs r rest]
    simp [List.replicate_succ]

theorem ask_openai_loop_failure : ∀ (n : Nat) (msgs : List Prompt) (e : Str)
    (rest : List Outcome),
    ask_openai_loop msgs (List.replicate n Outcome.timeout ++ Outcome.failure e :: rest)
      = (List.replicate (n + 1) msgs, some (Except.error e)) := by
  intro n
  induction n with
  | zero => intro msgs e rest; rfl
  | succ k ih =>
    intro msgs e rest
    simp only [List.replicate_succ, List.cons_append, ask_openai_loop, List.append_eq]
    rw [ih msgs e rest]
    simp [List.replicate_succ]

theorem ask_openai_loop_timeouts : ∀ (n : Nat) (msgs : List Prompt),
    ask_openai_loop msgs (List.replicate n Outcome.timeout)
      = (List.replicate n msgs, none) := by
  intro n
  induction n with
  | zero => intro msgs; rfl
  | succ k ih =>
    intro msgs
    simp only [List.replicate_succ, ask_openai_loop, ih msgs]

/-- C6: `ask_openai` catches only the endpoint's timeout error and retries
the identical two-message request indefinitely — after any number `n` of
timeouts it issues the same messages again and returns the first success —
while a non-timeout failure propagates to the caller, and a stream of
timeouts alone never produces a result (no retry limit). -/
theorem ask_openai_retry_contract :
    (∀ (prompt : Str) (n : Nat) (r : Response) (rest : List Outcome),
        ask_openai prompt (List.replicate n Outcome.timeout ++ Outcome.success r :: rest)
          = (List.replicate (n + 1) (mk_prompt_messages prompt), some (Except.ok r))) ∧
    (∀ (prompt : Str) (n : Nat) (e : Str) (rest : List Outcome),
        ask_openai prompt (List.replicate n Outcome.timeout ++ Outcome.failure e :: rest)
          = (List.replicate (n + 1) (mk_prompt_messages prompt), some (Except.error e))) ∧
    (∀ (prompt : Str) (n : Nat),
        ask_openai prompt (List.replicate n Outcome.timeout)
          = (List.replicate n (mk_prompt_messages prompt), none)) :=
  ⟨fun prompt n r rest => ask_openai_loop_success n (mk_prompt_messages prompt) r rest,
   fun prompt n e rest => ask_openai_loop_failure n (mk_prompt_messages prompt) e rest,
   fun prompt n => ask_openai_loop_timeouts n (mk_prompt_messages prompt)⟩

/-! ## Token sums and shape lemmas for the review loops -/

theorem tokenSum_cons (e : Event) (l : List Event) :
    tokenSum (e :: l) = eventTokens e + tokenSum l := by
  simp [tokenSum]

theorem tokenSum_append (l1 l2 : List Event) :
    tokenSum (l1 ++ l2) = tokenSum l1 + tokenSum l2 := by
  simp [tokenSum]

theorem process_alternatives_declined {p : Processment} {o : AltOracle}
    (hc : o.confirmed = false) :
    process_alternatives p o
      = Except.ok (p, [Event.prompt_built (build_alternatives_prompt p.rune_definition)]) := by
  simp [process_alternatives, hc]

theorem process_alternatives_asked {p : Processment} {o : AltOracle} {c : Choice}
    (hc : o.confirmed = true) (hch : o.response.choices = [c]) :
    process_alternatives p o = Except.ok
      (Processment.mk p.rune_definition (p.total_tokens + o.response.usage.total_tokens),
       Event.prompt_built (build_alternatives_prompt p.rune_definition) ::
         Event.asked_openai (build_alternatives_prompt p.rune_definition) o.response ::
         (if o.will_copy then
            [Event.copied (create_string_from_list (parse_response c.message.content))]
          else [])) := by
  by_cases hcp : o.will_copy = true
  · simp [process_alternatives, hc, hch, hcp]
  · have hcp' : o.will_copy = false := by simpa using hcp
    simp [process_alternatives, hc, hch, hcp']

theorem process_alternatives_unpack_nil {p : Processment} {o : AltOracle}
    (hc : o.confirmed = true) (hch : o.response.choices = []) :
    process_alternatives p o = Except.error RunErr.unpack := by
  simp [process_alternatives, hc, hch]

theorem process_alternatives_unpack_many {p : Processment} {o : AltOracle}
    {c c' : Choice} {cs : List Choice}
    (hc : o.confirmed = true) (hch : o.response.choices = c :: c' :: cs) :
    process_alternatives p o = Except.error RunErr.unpack := by
  simp [process_alternatives, hc, hch]

theorem process_alternatives_ok {p : Processment} {o : AltOracle} {q : Processment}
    {evs : List Event} (h : process_alternatives p o = Except.ok (q, evs)) :
    q.rune_definition = p.rune_definition ∧
    q.total_tokens = p.total_tokens + tokenSum evs := by
  by_cases hc : o.confirmed = true
  · cases hch : o.response.choices with
    | nil =>
      rw [process_alternatives_unpack_nil hc hch] at h
      cases h
    | cons c cs =>
      cases cs with
      | nil =>
        rw [process_alternatives_asked hc hch] at h
        simp only [Except.ok.injEq, Prod.mk.injEq] at h
        obtain ⟨rfl, rfl⟩ := h.symm.imp Eq.symm Eq.symm
        by_cases hcp : o.will_copy = true
        · exact ⟨rfl, by simp [hcp, tokenSum_cons, eventTokens, tokenSum]⟩
        · have hcp' : o.will_copy = false := by simpa using hcp
          exact ⟨rfl, by simp [hcp', tokenSum_cons, eventTokens, tokenSum]⟩
      | cons c' cs' =>
        rw [process_alternatives_unpack_many hc hch] at h
        cases h
  · have hc' : o.confirmed = false := by simpa using hc
    rw [process_alternatives_declined hc'] at h
    simp only [Except.ok.injEq, Prod.mk.injEq] at h
    obtain ⟨rfl, rfl⟩ := h.symm.imp Eq.symm Eq.symm
    exact ⟨rfl, by simp [tokenSum_cons, eventTokens, tokenSum]⟩

theorem summ_loop_nil (steps : Nat → SummStep) (i : Nat) :
    summ_loop steps i [] = Except.ok ([], 0, []) := rfl

theorem summ_loop_declined_ok {steps : Nat → SummStep} {i : Nat} {alt : Str}
    {rest : List Str} {summ : List Str} {tok : Nat} {evs : List Event}
    (hc : (steps i).confirmed = false)
    (hrec : summ_loop steps (i + 1) rest = Except.ok (summ, tok, evs)) :
    summ_loop steps i (alt :: rest)
      = Except.ok (summ, tok, Event.prompt_built (prompt_to_summary alt) :: evs) := by
  simp [summ_loop, hc, hrec]

theorem summ_loop_declined_err {steps : Nat → SummStep} {i : Nat} {alt : Str}
    {rest : List Str} {e : RunErr} (hc : (steps i).confirmed = false)
    (hrec : summ_loop steps (i + 1) rest = Except.error e) :
    summ_loop steps i (alt :: rest) = Except.error e := by
  simp [summ_loop, hc, hrec]

theorem summ_loop_asked_ok {steps : Nat → SummStep} {i : Nat} {alt : Str}
    {rest : List Str} {c : Choice} {summ : List Str} {tok : Nat} {evs : List Event}
    (hc : (steps i).confirmed = true) (hch : (steps i).response.choices = [c])
    (hrec : summ_loop steps (i + 1) rest = Except.ok (summ, tok, evs)) :
    summ_loop steps i (alt :: rest) = Except.ok
      ((if (steps i).will_add then [c.message.content, c.message.content]
        else [c.message.content]) ++ summ,
       (steps i).response.usage.total_tokens + tok,
       Event.prompt_built (prompt_to_summary alt) ::
         Event.asked_openai (prompt_to_summary alt) (steps i).response :: evs) := by
  simp [summ_loop, hc, hch, hrec]

theorem summ_loop_asked_err {steps : Nat → SummStep} {i : Nat} {alt : Str}
    {rest : List Str} {c : Choice} {e : RunErr}
    (hc : (steps i).confirmed = true) (hch : (steps i).response.choices = [c])
    (hrec : summ_loop steps (i + 1) rest = Except.error e) :
    summ_loop steps i (alt :: rest) = Except.error e := by
  simp [summ_loop, hc, hch, hrec]

theorem summ_loop_unpack_nil {steps : Nat → SummStep} {i : Nat} {alt : Str}
    {rest : List Str} (hc : (steps i).confirmed = true)
    (hch : (steps i).response.choices = []) :
    summ_loop steps i (alt :: rest) = Except.error RunErr.unpack := by
  simp [summ_loop, hc, hch]

theorem summ_loop_unpack_many {steps : Nat → SummStep} {i : Nat} {alt : Str}
    {rest : List Str} {c c' : Choice} {cs : List Choice}
    (hc : (steps i).confirmed = true)
    (hch : (steps i).response.choices = c :: c' :: cs) :
    summ_loop steps i (alt :: rest) = Except.error RunErr.unpack := by
  simp [summ_loop, hc, hch]

theorem summ_loop_tokens : ∀ (alts : List Str) (steps : Nat → SummStep) (i : Nat)
    (summ : List Str) (tok : Nat) (evs : List Event),
    summ_loop steps i alts = Except.ok (summ, tok, evs) → tok = tokenSum evs := by
  intro alts
  induction alts with
  | nil =>
    intro steps i summ tok evs h
    rw [summ_loop_nil] at h
    simp only [Except.ok.injEq, Prod.mk.injEq] at h
    obtain ⟨rfl, rfl, rfl⟩ := h
    rfl
  | cons alt rest ih =>
    intro steps i summ tok evs h
    by_cases hc : (steps i).confirmed = true
    · cases hch : (steps i).response.choices with
      | nil =>
        rw [summ_loop_unpack_nil hc hch] at h
        cases h
      | cons c cs =>
        cases cs with
        | cons c' cs' =>
          rw [summ_loop_unpack_many hc hch] at h
          cases h
        | nil =>
          cases hrec : summ_loop steps (i + 1) rest with
          | error e =>
            rw [summ_loop_asked_err hc hch hrec] at h
            cases h
          | ok trip =>
            obtain ⟨s', t', e'⟩ := trip
            rw [summ_loop_asked_ok hc hch hrec] at h
            simp only [Except.ok.injEq, Prod.mk.injEq] at h
            obtain ⟨rfl, rfl, rfl⟩ := h
            have ht := ih steps (i + 1) s' t' e' hrec
            rw [tokenSum_cons, tokenSum_cons, ht]
            simp [eventTokens]
    · have hc' : (steps i).confirmed = false := by simpa using hc
      cases hrec : summ_loop steps (i + 1) rest with
      | error e =>
        rw [summ_loop_declined_err hc' hrec] at h
        cases h
      | ok trip =>
        obtain ⟨s', t', e'⟩ := trip
        rw [summ_loop_declined_ok hc' hrec] at h
        simp only [Except.ok.injEq, Prod.mk.injEq] at h
        obtain ⟨rfl, rfl, rfl⟩ := h
        have ht := ih steps (i + 1) s' t' e' hrec
        rw [tokenSum_cons, ht]
        simp [eventTokens]

theorem summ_loop_all_declined : ∀ (alts : List Str) (steps : Nat → SummStep) (i : Nat),
    (∀ j, (steps j).confirmed = false) →
    summ_loop steps i alts = Except.ok
      ([], 0, alts.map (fun a => Event.prompt_built (prompt_to_summary a))) := by
  intro alts
  induction alts with
  | nil => intro steps i _; rfl
  | cons alt rest ih =>
    intro steps i h
    rw [summ_loop_declined_ok (h i) (ih steps (i + 1) h)]
    simp

theorem summ_loop_mem_invariant : ∀ (alts : List Str) (steps₁ steps₂ : Nat → SummStep),
    (∀ j, (steps₁ j).confirmed = (steps₂ j).confirmed ∧
          (steps₁ j).response = (steps₂ j).response) →
    ∀ (i : Nat) (s₁ s₂ : List Str) (t₁ t₂ : Nat) (e₁ e₂ : List Event),
    summ_loop steps₁ i alts = Except.ok (s₁, t₁, e₁) →
    summ_loop steps₂ i alts = Except.ok (s₂, t₂, e₂) →
    (∀ x, x ∈ s₁ ↔ x ∈ s₂) ∧ t₁ = t₂ ∧ e₁ = e₂ := by
  intro alts
  induction alts with
  | nil =>
    intro steps₁ steps₂ hag i s₁ s₂ t₁ t₂ e₁ e₂ h1 h2
    rw [summ_loop_nil] at h1 h2
    simp only [Except.ok.injEq, Prod.mk.injEq] at h1 h2
    obtain ⟨rfl, rfl, rfl⟩ := h1
    obtain ⟨rfl, rfl, rfl⟩ := h2
    exact ⟨fun x => Iff.rfl, rfl, rfl⟩
  | cons alt rest ih =>
    intro steps₁ steps₂ hag i s₁ s₂ t₁ t₂ e₁ e₂ h1 h2
    rcases hag i with ⟨hcEq, hrEq⟩
    by_cases hc : (steps₁ i).confirmed = true
    · have hc2 : (steps₂ i).confirmed = true := hcEq ▸ hc
      cases hch : (steps₁ i).response.choices with
      | nil =>
        rw [summ_loop_unpack_nil hc hch] at h1
        cases h1
      | cons c cs =>
        cases cs with
        | cons c' cs' =>
          rw [summ_loop_unpack_many hc hch] at h1
          cases h1
        | nil =>
          have hch2 : (steps₂ i).response.choices = [c] := by
            rw [← hrEq]
            exact hch
          cases hrec1 : summ_loop steps₁ (i + 1) rest with
          | error e =>
            rw [summ_loop_asked_err hc hch hrec1] at h1
            cases h1
          | ok trip1 =>
            obtain ⟨s₁', t₁', e₁'⟩ := trip1
            cases hrec2 : summ_loop steps₂ (i + 1) rest with
            | error e =>
              rw [summ_loop_asked_err hc2 hch2 hrec2] at h2
              cases h2
            | ok trip2 =>
              obtain ⟨s₂', t₂', e₂'⟩ := trip2
              rw [summ_loop_asked_ok hc hch hrec1] at h1
              rw [summ_loop_asked_ok hc2 hch2 hrec2] at h2
              simp only [Except.ok.injEq, Prod.mk.injEq] at h1 h2
              obtain ⟨rfl, rfl, rfl⟩ := h1
              obtain ⟨rfl, rfl, rfl⟩ := h2
              obtain ⟨hmem, ht, he⟩ :=
                ih steps₁ steps₂ hag (i + 1) s₁' s₂' t₁' t₂' e₁' e₂' hrec1 hrec2
              refine ⟨?_, by rw [hrEq, ht], by rw [hrEq, he]⟩
              intro x
              constructor
              · intro hx
                rcases List.mem_append.mp hx with hx | hx
                · have hxc : x = c.message.content := by
                    by_cases hw : (steps₁ i).will_add = true <;>
                      simp [hw] at hx <;> exact hx
                  subst hxc
                  refine List.mem_append.mpr (Or.inl ?_)
                  by_cases hw : (steps₂ i).will_add = true <;> simp [hw]
                · exact List.mem_append.mpr (Or.inr ((hmem x).mp hx))
              · intro hx
                rcases List.mem_append.mp hx with hx | hx
                · have hxc : x = c.message.content := by
                    by_cases hw : (steps₂ i).will_add = true <;>
                      simp [hw] at hx <;> exact hx
                  subst hxc
                  refine List.mem_append.mpr (Or.inl ?_)
                  by_cases hw : (steps₁ i).will_add = true <;> simp [hw]
                · exact List.mem_append.mpr (Or.inr ((hmem x).mpr hx))
    · have hc1 : (steps₁ i).confirmed = false := by simpa using hc
      have hc2 : (steps₂ i).confirmed = false := hcEq ▸ hc1
      cases hrec1 : summ_loop steps₁ (i + 1) rest with
      | error e =>
        rw [summ_loop_declined_err hc1 hrec1] at h1
        cases h1
      | ok trip1 =>
        obtain ⟨s₁', t₁', e₁'⟩ := trip1
        cases hrec2 : summ_loop steps₂ (i + 1) rest with
        | error e =>
          rw [summ_loop_declined_err hc2 hrec2] at h2
          cases h2
        | ok trip2 =>
          obtain ⟨s₂', t₂', e₂'⟩ := trip2
          rw [summ_loop_declined_ok hc1 hrec1] at h1
          rw [summ_loop_declined_ok hc2 hrec2] at h2
          simp only [Except.ok.injEq, Prod.mk.injEq] at h1 h2
          obtain ⟨rfl, rfl, rfl⟩ := h1
          obtain ⟨rfl, rfl, rfl⟩ := h2
          obtain ⟨hmem, ht, he⟩ :=
            ih steps₁ steps₂ hag (i + 1) s₁' s₂' t₁' t₂' e₁' e₂' hrec1 hrec2
          exact ⟨hmem, ht, by rw [he]⟩

theorem summ_loop_count {steps : Nat → SummStep} {i : Nat} {alt : Str}
    {rest : List Str} {c : Choice} {summ : List Str} {tok : Nat} {evs : List Event}
    (h : summ_loop steps i (alt :: rest) = Except.ok (summ, tok, evs))
    (hc : (steps i).confirmed = true) (hch : (steps i).response.choices = [c]) :
    (if (steps i).will_add then 2 else 1) ≤ summ.count c.message.content := by
  cases hrec : summ_loop steps (i + 1) rest with
  | error e =>
    rw [summ_loop_asked_err hc hch hrec] at h
    cases h
  | ok trip =>
    obtain ⟨s', t', e'⟩ := trip
    rw [summ_loop_asked_ok hc hch hrec] at h
    simp only [Except.ok.injEq, Prod.mk.injEq] at h
    obtain ⟨rfl, rfl, rfl⟩ := h
    rw [List.count_append]
    by_cases hw : (steps i).will_add = true
    · rw [if_pos hw, if_pos hw]
      have h2 : List.count c.message.content
          [c.message.content, c.message.content] = 2 := by
        simp [List.count_cons]
      omega
    · have hw' : (steps i).will_add = false := by simpa using hw
      rw [hw']
      simp only [Bool.false_eq_true, if_false]
      have h1 : List.count c.message.content [c.message.content] = 1 := by
        simp [List.count_cons]
      omega

theorem process_summaries_eq_of_loop {p : Processment} {o : SummOracle}
    {summ : List Str} {tok : Nat} {evs : List Event}
    (hrec : summ_loop o.steps 0 (p.rune_definition.alternatives.getD [])
      = Except.ok (summ, tok, evs)) :
    process_summaries p o =
      (if o.will_copy then
        (if (create_string_from_list summ).length > 0 then
          Except.ok (Processment.mk p.rune_definition (p.total_tokens + tok),
            evs ++ [Event.copied (create_string_from_list summ)])
        else Except.error RunErr.assertFail)
      else Except.ok (Processment.mk p.rune_definition (p.total_tokens + tok), evs)) := by
  simp [process_summaries, hrec]

theorem process_summaries_err_of_loop {p : Processment} {o : SummOracle} {e : RunErr}
    (hrec : summ_loop o.steps 0 (p.rune_definition.alternatives.getD [])
      = Except.error e) :
    process_summaries p o = Except.error e := by
  simp [process_summaries, hrec]

theorem process_summaries_ok {p q : Processment} {o : SummOracle} {evs : List Event}
    (h : process_summaries p o = Except.ok (q, evs)) :
    q.rune_definition = p.rune_definition ∧
    q.total_tokens = p.total_tokens + tokenSum evs := by
  cases hrec : summ_loop o.steps 0 (p.rune_definition.alternatives.getD []) with
  | error e =>
    rw [process_summaries_err_of_loop hrec] at h
    cases h
  | ok trip =>
    obtain ⟨summ, tok, evs'⟩ := trip
    rw [process_summaries_eq_of_loop hrec] at h
    have htok := summ_loop_tokens _ o.steps 0 summ tok evs' hrec
    by_cases hcp : o.will_copy = true
    · by_cases hlen : (create_string_from_list summ).length > 0
      · rw [if_pos hcp, if_pos hlen] at h
        simp only [Except.ok.injEq, Prod.mk.injEq] at h
        obtain ⟨rfl, rfl⟩ := h.symm.imp Eq.symm Eq.symm
        refine ⟨rfl, ?_⟩
        rw [tokenSum_append, tokenSum_cons]
        simp [eventTokens, htok, tokenSum]
      · rw [if_pos hcp, if_neg hlen] at h
        cases h
    · have hcp' : o.will_copy = false := by simpa using hcp
      rw [hcp'] at h
      simp only [Bool.false_eq_true, if_false, Except.ok.injEq, Prod.mk.injEq] at h
      obtain ⟨rfl, rfl⟩ := h.symm.imp Eq.symm Eq.symm
      exact ⟨rfl, by rw [htok]⟩

theorem process_record_skip {r : RuneDefinition} {o : RecordOracle}
    (h1 : truthy r.alternatives = true) (h2 : truthy r.summaries = true) :
    process_record r o = Except.ok (RecordResult.mk 0 [] false false) := by
  simp [process_record, h1, h2]

theorem process_record_ok {r : RuneDefinition} {o : RecordOracle} {res : RecordResult}
    (h : process_record r o = Except.ok res) :
    res.tokens = tokenSum res.events ∧
    (r.alternatives = none → res.ran_summaries = false) := by
  by_cases hskip : (truthy r.alternatives && truthy r.summaries) = true
  · rcases Bool.and_eq_true_iff.mp hskip with ⟨ha, hs⟩
    rw [process_record_skip ha hs] at h
    simp only [Except.ok.injEq] at h
    subst h
    exact ⟨rfl, fun _ => rfl⟩
  · have hskip' : (truthy r.alternatives && truthy r.summaries) = false := by
      simpa using hskip
    by_cases halt : truthy r.alternatives = true
    · have hsum : truthy r.summaries = false := by
        cases hs : truthy r.summaries
        · rfl
        · rw [halt, hs] at hskip'
          cases hskip'
      cases hrec : process_summaries (Processment.mk r 0) o.summ with
      | error e =>
        have hpr : process_record r o = Except.error e := by
          simp [process_record, halt, hsum, hrec, Except.map]
        rw [hpr] at h
        cases h
      | ok pe =>
        obtain ⟨q, ev2⟩ := pe
        obtain ⟨hframe, htok⟩ := process_summaries_ok hrec
        have hpr : process_record r o
            = Except.ok (RecordResult.mk q.total_tokens (([] : List Event) ++ ev2) false true) := by
          simp [process_record, halt, hsum, hrec, Except.map]
        rw [hpr] at h
        simp only [Except.ok.injEq] at h
        subst h
        refine ⟨by simpa using htok, ?_⟩
        intro hnone
        rw [hnone] at halt
        simp [truthy] at halt
    · have halt' : truthy r.alternatives = false := by simpa using halt
      cases hrec : process_alternatives (Processment.mk r 0) o.alt with
      | error e =>
        have hpr : process_record r o = Except.error e := by
          simp [process_record, halt', hrec, Except.map]
        rw [hpr] at h
        cases h
      | ok pe =>
        obtain ⟨p1, ev1⟩ := pe
        obtain ⟨hframe, htok⟩ := process_alternatives_ok hrec
        have hpr : process_record r o
            = Except.ok (RecordResult.mk p1.total_tokens (ev1 ++ ([] : List Event)) true false) := by
          simp [process_record, halt', hrec, Except.map, hframe]
        rw [hpr] at h
        simp only [Except.ok.injEq] at h
        subst h
        exact ⟨by simpa using htok, fun _ => rfl⟩

theorem main_loop_tokens : ∀ (records : List RuneDefinition)
    (oracle : Nat → RecordOracle) (i : Nat) (tot : Nat) (evs : List Event),
    main_loop oracle i records = Except.ok (tot, evs) → tot = tokenSum evs := by
  intro records
  induction records with
  | nil =>
    intro oracle i tot evs h
    have hnil : main_loop oracle i [] = Except.ok (0, ([] : List Event)) := rfl
    rw [hnil] at h
    simp only [Except.ok.injEq, Prod.mk.injEq] at h
    obtain ⟨rfl, rfl⟩ := h.symm.imp Eq.symm Eq.symm
    rfl
  | cons r rest ih =>
    intro oracle i tot evs h
    cases hrec : process_record r (oracle i) with
    | error e =>
      have hml : main_loop oracle i (r :: rest) = Except.error e := by
        simp [main_loop, hrec]
      rw [hml] at h
      cases h
    | ok res =>
      cases hrec2 : main_loop oracle (i + 1) rest with
      | error e =>
        have hml : main_loop oracle i (r :: rest) = Except.error e := by
          simp [main_loop, hrec, hrec2]
        rw [hml] at h
        cases h
      | ok te =>
        obtain ⟨t', e'⟩ := te
        have hml : main_loop oracle i (r :: rest)
            = Except.ok (res.tokens + t', res.events ++ e') := by
          simp [main_loop, hrec, hrec2]
        rw [hml] at h
        simp only [Except.ok.injEq, Prod.mk.injEq] at h
        obtain ⟨rfl, rfl⟩ := h.symm.imp Eq.symm Eq.symm
        have h1 := (process_record_ok hrec).1
        have h2 := ih oracle (i + 1) t' e' hrec2
        rw [tokenSum_append, h1, h2]

/-! ## Claim C4: complete records are skipped -/

/-- C4: for every record whose `alternatives` and `summaries` are both
present and non-empty, the driver's per-record step produces no events at
all — no prompt is built and the completion client is never invoked — and
dispatches neither stage. -/
theorem driver_skips_complete_records (r : RuneDefinition) (o : RecordOracle)
    (la ls : List Str) (ha : r.alternatives = some la) (hla : la ≠ [])
    (hs : r.summaries = some ls) (hls : ls ≠ []) :
    process_record r o = Except.ok (RecordResult.mk 0 [] false false) := by
  have h1 : truthy r.alternatives = true := by
    rw [ha]
    cases la with
    | nil => cases hla rfl
    | cons a t => rfl
  have h2 : truthy r.summaries = true := by
    rw [hs]
    cases ls with
    | nil => cases hls rfl
    | cons a t => rfl
  exact process_record_skip h1 h2

/-- C4 witness: the skip at a concrete complete record. -/
theorem driver_skips_complete_records_witness :
    process_record recC4 recOracleNo = Except.ok (RecordResult.mk 0 [] false false) :=
  driver_skips_complete_records recC4 recOracleNo [sampleAltA] [sampleContentC]
    rfl (List.cons_ne_nil sampleAltA []) rfl (List.cons_ne_nil sampleContentC [])

/-! ## Claim C5: the reviews never modify the record -/

/-- C5: neither `process_alternatives` nor `process_summaries` modifies the
record inside the processment (results reach only the event trace, never
the record store), and consequently a record whose `alternatives` field is
absent at load time never has its summaries stage dispatched in the same
driver iteration, even after the alternatives review completes. -/
theorem reviews_do_not_modify_record :
    (∀ (p : Processment) (o : AltOracle) (q : Processment) (evs : List Event),
        process_alternatives p o = Except.ok (q, evs) →
        q.rune_definition = p.rune_definition) ∧
    (∀ (p : Processment) (o : SummOracle) (q : Processment) (evs : List Event),
        process_summaries p o = Except.ok (q, evs) →
        q.rune_definition = p.rune_definition) ∧
    (∀ (r : RuneDefinition) (o : RecordOracle) (res : RecordResult),
        r.alternatives = none → process_record r o = Except.ok res →
        res.ran_summaries = false) :=
  ⟨fun _ _ _ _ h => (process_alternatives_ok h).1,
   fun _ _ _ _ h => (process_summaries_ok h).1,
   fun _ _ _ hnone h => (process_record_ok h).2 hnone⟩

/-- C5 witness: a record loaded without alternatives runs only the
alternatives stage. -/
theorem reviews_do_not_modify_record_witness : resC5.ran_summaries = false :=
  reviews_do_not_modify_record.2.2 recC5 recOracleNo resC5 rfl rfl

/-! ## Claim C9: token accounting is additive -/

/-- C9: the run-wide token accumulator of the driver equals the sum of the
`total_tokens` reported by the completions consumed along the run; in the
concrete two-completion run reporting 10 and 15 tokens the accumulator
reads 25. -/
theorem token_accounting_additive :
    (∀ (records : List RuneDefinition) (oracle : Nat → RecordOracle) (tot : Nat)
        (evs : List Event),
        main_loop oracle 0 records = Except.ok (tot, evs) → tot = tokenSum evs) ∧
    runTokens (main_loop oracleC9 0 recordsC9) = some 25 := by
  constructor
  · exact fun records oracle tot evs h => main_loop_tokens records oracle 0 tot evs h
  · rfl

/-- C9 witness: the additivity theorem applied to the concrete
two-completion run. -/
theorem token_accounting_additive_witness : (25 : Nat) = tokenSum evsC9 :=
  token_accounting_additive.1 recordsC9 oracleC9 25 evsC9 rfl

/-! ## Claim C10: the empty-summaries assertion is reachable -/

/-- C10: `create_string_from_list` on the empty list is the empty string,
and when the operator declines every ask and then confirms the final copy,
`process_summaries` hits the `assert len(copied) > 0` failure and aborts. -/
theorem empty_summaries_assert_fails :
    create_string_from_list [] = [] ∧
    (∀ (p : Processment) (o : SummOracle), (∀ j, (o.steps j).confirmed = false) →
        o.will_copy = true → process_summaries p o = Except.error RunErr.assertFail) := by
  refine ⟨rfl, ?_⟩
  intro p o hsteps hcopy
  have hrec := summ_loop_all_declined (p.rune_definition.alternatives.getD [])
    o.steps 0 hsteps
  rw [process_summaries_eq_of_loop hrec, if_pos hcopy]
  rfl

/-- C10 witness: the assertion failure at a concrete record and oracle. -/
theorem empty_summaries_assert_fails_witness :
    process_summaries procC10 summOracleC10 = Except.error RunErr.assertFail :=
  empty_summaries_assert_fails.2 procC10 summOracleC10 (fun _ => rfl) rfl

/-! ## Claim C1: the summaries append and the Add? decision -/

/-- C1 (counterexample): the summaries list is not independent of the
`Add?` decision.  With one alternative asked and the same response, the
operator accepting yields the content twice, rejecting yields it once: the
decision controls a duplicate append, not merely a printed
acknowledgment. -/
theorem summaries_depend_on_add_decision :
    summ_loop stepsAdd 0 [sampleAltA]
      = Except.ok ([sampleContentC, sampleContentC], 5, evC1) ∧
    summ_loop stepsNoAdd 0 [sampleAltA] = Except.ok ([sampleContentC], 5, evC1) ∧
    ([sampleContentC, sampleContentC] : List Str) ≠ [sampleContentC] :=
  ⟨rfl, rfl, by decide⟩

/-- C1 (amended): for every alternative the operator agrees to ask about,
the completion's content is included in the summaries regardless of the
`Add?` decision — membership, token totals and the event trace do not
depend on the `Add?` answers — but accepting appends the content a second
time: the content occurs at least twice on accept and at least once on
reject. -/
theorem summaries_append_contract :
    (∀ (alts : List Str) (steps₁ steps₂ : Nat → SummStep),
        (∀ j, (steps₁ j).confirmed = (steps₂ j).confirmed ∧
              (steps₁ j).response = (steps₂ j).response) →
        ∀ (i : Nat) (s₁ s₂ : List Str) (t₁ t₂ : Nat) (e₁ e₂ : List Event),
        summ_loop steps₁ i alts = Except.ok (s₁, t₁, e₁) →
        summ_loop steps₂ i alts = Except.ok (s₂, t₂, e₂) →
        (∀ x, x ∈ s₁ ↔ x ∈ s₂) ∧ t₁ = t₂ ∧ e₁ = e₂) ∧
    (∀ (steps : Nat → SummStep) (i : Nat) (alt : Str) (rest : List Str) (c : Choice)
        (summ : List Str) (tok : Nat) (evs : List Event),
        summ_loop steps i (alt :: rest) = Except.ok (summ, tok, evs) →
        (steps i).confirmed = true → (steps i).response.choices = [c] →
        (if (steps i).will_add then 2 else 1) ≤ summ.count c.message.content) :=
  ⟨summ_loop_mem_invariant,
   fun _ _ _ _ _ _ _ _ h hc hch => summ_loop_count h hc hch⟩

/-- C1 witness: membership invariance and the duplicate append at the
concrete one-alternative run. -/
theorem summaries_append_contract_witness :
    (sampleContentC ∈ ([sampleContentC, sampleContentC] : List Str) ↔
      sampleContentC ∈ ([sampleContentC] : List Str)) ∧
    2 ≤ ([sampleContentC, sampleContentC] : List Str).count sampleContentC := by
  constructor
  · exact (summaries_append_contract.1 [sampleAltA] stepsAdd stepsNoAdd
      (fun _ => ⟨rfl, rfl⟩) 0 [sampleContentC, sampleContentC] [sampleContentC]
      5 5 evC1 evC1 rfl rfl).1 sampleContentC
  · have h := summaries_append_contract.2 stepsAdd 0 sampleAltA [] sampleChoiceC
      [sampleContentC, sampleContentC] 5 evC1 rfl rfl rfl
    exact h

/-! ## Substring occurrence machinery for claim C8 -/

theorem isPrefixOf_eq_iff : ∀ (p s : Str), p.isPrefixOf s = true ↔ ∃ t, s = p ++ t := by
  intro p
  induction p with
  | nil =>
    intro s
    constructor
    · intro _
      exact ⟨s, rfl⟩
    · intro _
      cases s <;> rfl
  | cons c p' ih =>
    intro s
    cases s with
    | nil =>
      constructor
      · intro h
        cases h
      · rintro ⟨t, ht⟩
        cases ht
    | cons d s' =>
      constructor
      · intro h
        have h' : (c == d && p'.isPrefixOf s') = true := h
        rw [Bool.and_eq_true, beq_iff_eq] at h'
        obtain ⟨rfl, h2⟩ := h'
        obtain ⟨t, rfl⟩ := (ih s').mp h2
        exact ⟨t, rfl⟩
      · rintro ⟨t, ht⟩
        injection ht with h1 h2
        subst h1
        show (d == d && p'.isPrefixOf s') = true
        rw [beq_self_eq_true, Bool.true_and]
        exact (ih s').mpr ⟨t, h2⟩

theorem containsSub_iff : ∀ (s p : Str), containsSub p s = true ↔ occursIn p s := by
  intro s
  induction s with
  | nil =>
    intro p
    rw [containsSub]
    constructor
    · intro h
      have hp : p = [] := List.isEmpty_iff.mp h
      subst hp
      exact ⟨[], [], rfl⟩
    · rintro ⟨u, v, huv⟩
      have h1 : u ++ p ++ v = [] := huv.symm
      rw [List.append_eq_nil] at h1
      obtain ⟨h2, _⟩ := h1
      rw [List.append_eq_nil] at h2
      rw [h2.2]
      rfl
  | cons c rest ih =>
    intro p
    rw [containsSub, Bool.or_eq_true]
    constructor
    · intro h
      rcases h with h | h
      · obtain ⟨t, ht⟩ := (isPrefixOf_eq_iff p (c :: rest)).mp h
        exact ⟨[], t, by simpa using ht⟩
      · obtain ⟨u, v, huv⟩ := (ih p).mp h
        exact ⟨c :: u, v, by simp [huv]⟩
    · rintro ⟨u, v, huv⟩
      cases u with
      | nil =>
        left
        exact (isPrefixOf_eq_iff p (c :: rest)).mpr ⟨v, by simpa using huv⟩
      | cons x u' =>
        right
        have huv' : c :: rest = x :: (u' ++ p ++ v) := by simpa using huv
        injection huv' with h1 h2
        exact (ih p).mpr ⟨u', v, h2⟩

theorem containsSub_false_iff (p s : Str) : containsSub p s = false ↔ ¬occursIn p s := by
  rw [← containsSub_iff s p]
  cases h : containsSub p s <;> simp

theorem occursIn_append_cases {p a b : Str} (h : occursIn p (a ++ b)) :
    occursIn p a ∨ occursIn p b ∨
      ∃ s t, p = s ++ t ∧ s ≠ [] ∧ t ≠ [] ∧ (∃ u, a = u ++ s) ∧ ∃ v, b = t ++ v := by
  obtain ⟨u, v, huv⟩ := h
  have huv' : a ++ b = u ++ (p ++ v) := by rw [huv, List.append_assoc]
  rcases List.append_eq_append_iff.mp huv' with ⟨w, hw1, hw2⟩ | ⟨w, hw1, hw2⟩
  · right
    left
    exact ⟨w, v, by rw [hw2, List.append_assoc]⟩
  · rcases List.append_eq_append_iff.mp hw2 with ⟨y, hy1, hy2⟩ | ⟨y, hy1, hy2⟩
    · left
      refine ⟨u, y, ?_⟩
      rw [hw1, hy1, List.append_assoc]
    · by_cases hwnil : w = []
      · subst hwnil
        right
        left
        refine ⟨[], v, ?_⟩
        have hyp : p = y := by simpa using hy1
        rw [hy2, hyp]
        simp
      · by_cases hynil : y = []
        · subst hynil
          left
          have hp : p = w := by simpa using hy1
          refine ⟨u, [], ?_⟩
          rw [hw1, hp]
          simp
        · right
          right
          exact ⟨w, y, hy1, hwnil, hynil, ⟨u, hw1⟩, ⟨v, hy2⟩⟩

theorem getLast?_of_append_ne_nil {a s : Str} (hs : s ≠ []) (u : Str)
    (ha : a = u ++ s) : ∃ c, a.getLast? = some c ∧ c ∈ s := by
  refine ⟨s.getLast hs, ?_, List.getLast_mem hs⟩
  rw [ha, List.getLast?_append, List.getLast?_eq_getLast s hs]
  rfl

theorem not_occursIn_append_left {p a b : Str} (ha : ¬occursIn p a)
    (hb : ¬occursIn p b) (c0 : Char) (hlast : a.getLast? = some c0) (hc : c0 ∉ p) :
    ¬occursIn p (a ++ b) := by
  intro h
  rcases occursIn_append_cases h with h1 | h1 | h1
  · exact ha h1
  · exact hb h1
  · obtain ⟨s, t, hp, hs, _, ⟨u, hu⟩, _⟩ := h1
    obtain ⟨c, hc1, hc2⟩ := getLast?_of_append_ne_nil hs u hu
    rw [hlast] at hc1
    injection hc1 with hc1
    subst hc1
    apply hc
    rw [hp]
    exact List.mem_append.mpr (Or.inl hc2)

theorem not_occursIn_append_right {p a b : Str} (ha : ¬occursIn p a)
    (hb : ¬occursIn p b) (c0 : Char) (hhead : b.head? = some c0) (hc : c0 ∉ p) :
    ¬occursIn p (a ++ b) := by
  intro h
  rcases occursIn_append_cases h with h1 | h1 | h1
  · exact ha h1
  · exact hb h1
  · obtain ⟨s, t, hp, _, ht, _, ⟨v, hv⟩⟩ := h1
    cases t with
    | nil => cases ht rfl
    | cons x t' =>
      rw [hv] at hhead
      have hx : x = c0 := by simpa using hhead
      subst hx
      apply hc
      rw [hp]
      exact List.mem_append.mpr (Or.inr (List.mem_cons_self x t'))

theorem build_prompt_normal (r : RuneDefinition) (h : r.type = RuneType.normal) :
    build_alternatives_prompt r =
      genChunk1 ++ (get_only_the_rune_name r.rune_name ++ (genChunk2 ++ (r.description ++
        (genChunk3 ++ (get_only_the_rune_name r.rune_name ++ genChunk4))))) := by
  rw [build_alternatives_prompt, h]
  simp [prompt_to_generate, List.append_assoc]

theorem normal_prompt_no_invertida (r : RuneDefinition) (h : r.type = RuneType.normal)
    (hn : containsSub invertWord (get_only_the_rune_name r.rune_name) = false)
    (hd : containsSub invertWord r.description = false) :
    containsSub invertWord (build_alternatives_prompt r) = false := by
  have hn' : ¬occursIn invertWord (get_only_the_rune_name r.rune_name) :=
    (containsSub_false_iff _ _).mp hn
  have hd' : ¬occursIn invertWord r.description := (containsSub_false_iff _ _).mp hd
  have hc1 : ¬occursIn invertWord genChunk1 := (containsSub_false_iff _ _).mp (by decide)
  have hc2 : ¬occursIn invertWord genChunk2 := (containsSub_false_iff _ _).mp (by decide)
  have hc3 : ¬occursIn invertWord genChunk3 := (containsSub_false_iff _ _).mp (by decide)
  have hc4 : ¬occursIn invertWord genChunk4 := (containsSub_false_iff _ _).mp (by decide)
  have s1 : ¬occursIn invertWord (get_only_the_rune_name r.rune_name ++ genChunk4) :=
    not_occursIn_append_right hn' hc4 '\n' rfl (by decide)
  have s2 : ¬occursIn invertWord
      (genChunk3 ++ (get_only_the_rune_name r.rune_name ++ genChunk4)) :=
    not_occursIn_append_left hc3 s1 ' ' rfl (by decide)
  have s3 : ¬occursIn invertWord (r.description ++
      (genChunk3 ++ (get_only_the_rune_name r.rune_name ++ genChunk4))) :=
    not_occursIn_append_right hd' s2 '\n' rfl (by decide)
  have s4 : ¬occursIn invertWord (genChunk2 ++ (r.description ++
      (genChunk3 ++ (get_only_the_rune_name r.rune_name ++ genChunk4)))) :=
    not_occursIn_append_left hc2 s3 ' ' rfl (by decide)
  have s5 : ¬occursIn invertWord (get_only_the_rune_name r.rune_name ++
      (genChunk2 ++ (r.description ++
        (genChunk3 ++ (get_only_the_rune_name r.rune_name ++ genChunk4))))) :=
    not_occursIn_append_right hn' s4 ':' rfl (by decide)
  have s6 : ¬occursIn invertWord (genChunk1 ++ (get_only_the_rune_name r.rune_name ++
      (genChunk2 ++ (r.description ++
        (genChunk3 ++ (get_only_the_rune_name r.rune_name ++ genChunk4)))))) :=
    not_occursIn_append_left hc1 s5 ' ' rfl (by decide)
  rw [build_prompt_normal r h]
  exact (containsSub_false_iff _ _).mpr s6

theorem invert_prompt_decomposition (r : RuneDefinition) (h : r.type = RuneType.invert) :
    ∃ u v w, build_alternatives_prompt r =
      u ++ (get_only_the_rune_name r.rune_name ++ invertQualifier) ++ v ++
        (get_only_the_rune_name r.rune_name ++ invertQualifier) ++ w := by
  refine ⟨genChunk1, genChunk2 ++ r.description ++ genChunk3, genChunk4, ?_⟩
  rw [build_alternatives_prompt, h]
  simp [prompt_to_generate, List.append_assoc]

/-! ## Claim C8: the inversion qualifier in the alternatives prompt -/

/-- C8 (counterexample): the normal-kind prompt can contain `invertida` —
it does whenever the record's description contains it, as for the concrete
record with description `una runa invertida algo`. -/
theorem normal_prompt_with_invertida_description :
    recC8ce.type = RuneType.normal ∧
    containsSub invertWord (build_alternatives_prompt recC8ce) = true :=
  ⟨rfl, by decide⟩

/-- C8 (amended): for kind `invert` the prompt contains the display name
immediately followed by the qualifier `" invertida"` at both template
occurrences of the name; for kind `normal` the prompt does not contain
`invertida`, provided the record's own display name and description do not
contain it. -/
theorem alternatives_prompt_invertida :
    (∀ r : RuneDefinition, r.type = RuneType.invert →
        ∃ u v w, build_alternatives_prompt r =
          u ++ (get_only_the_rune_name r.rune_name ++ invertQualifier) ++ v ++
            (get_only_the_rune_name r.rune_name ++ invertQualifier) ++ w) ∧
    (∀ r : RuneDefinition, r.type = RuneType.normal →
        containsSub invertWord (get_only_the_rune_name r.rune_name) = false →
        containsSub invertWord r.description = false →
        containsSub invertWord (build_alternatives_prompt r) = false) :=
  ⟨invert_prompt_decomposition, normal_prompt_no_invertida⟩

/-- C8 witness: the amended theorem at a concrete normal record free of
`invertida` and at a concrete invert record. -/
theorem alternatives_prompt_invertida_witness :
    containsSub invertWord (build_alternatives_prompt recC8n) = false ∧
    (∃ u v w, build_alternatives_prompt recC8i =
      u ++ (get_only_the_rune_name recC8i.rune_name ++ invertQualifier) ++ v ++
        (get_only_the_rune_name recC8i.rune_name ++ invertQualifier) ++ w) :=
  ⟨alternatives_prompt_invertida.2 recC8n rfl (by decide) (by decide),
   alternatives_prompt_invertida.1 recC8i rfl⟩
